import Mathlib

/-!
Verification of the `wren` VM core against its design specification.

The repository ships the header `src/wren_vm.h`, which fixes the data model
(structs `SymbolTable`, `PinnedObj`, `WrenVM`, `CallFrame`, `sFiber`), the
opcode set with per-opcode semantics in comments, the capacity constants
`STACK_SIZE` and `MAX_CALL_FRAMES`, and the contracts of the operations
(`addSymbol`, `ensureSymbol`, `findSymbol`, `truncateSymbolTable`,
`getSymbolName`, `pinObj`, `unpinObj`, `callFunction`, `interpret`, and the
garbage collector's root set).  The implementation file `wren_vm.c` is not
part of the sources, so every function body below is modelled from the
specification's description of the behaviour, faithful to the header's
declarations and comments.
-/

namespace Wren

/-- STACK_SIZE from wren_vm.h: maximum depth of a fiber's value stack. -/
def STACK_SIZE : Nat := 1024

/-- MAX_CALL_FRAMES from wren_vm.h: maximum depth of a fiber's frame stack. -/
def MAX_CALL_FRAMES : Nat := 256

/-- SymbolTable from wren_vm.h: interned names in insertion order; `count` is
the number of names, here the length of the list. -/
structure SymbolTable where
  names : List String
deriving DecidableEq, Repr

/-- Number of symbols in the table (the `count` field of the C struct). -/
def SymbolTable.count (t : SymbolTable) : Nat := t.names.length

/-- Modelled from the spec (wren_vm.c is absent): `initSymbolTable` starts an
empty table. -/
def initSymbolTable : SymbolTable := { names := [] }

/-- Modelled from the spec (wren_vm.c is absent): linear search for a name,
returning its index, or -1 when not found, as `findSymbol` declares. -/
def findSymbolIn : List String → String → Int
  | [], _ => -1
  | n :: rest, name =>
    if n = name then 0
    else
      let r := findSymbolIn rest name
      if r = -1 then -1 else r + 1

/-- findSymbol from wren_vm.h: looks up a name, returns its index if found or
-1 if not. -/
def findSymbol (t : SymbolTable) (name : String) : Int :=
  findSymbolIn t.names name

/-- Modelled from the spec (wren_vm.c is absent): `addSymbol` returns -1 and
leaves the table unchanged when the name is already present, otherwise appends
the name and returns the new index (the previous count). -/
def addSymbol (t : SymbolTable) (name : String) : SymbolTable × Int :=
  if findSymbol t name = -1 then
    ({ names := t.names ++ [name] }, (t.names.length : Int))
  else
    (t, -1)

/-- Modelled from the spec (wren_vm.c is absent): `ensureSymbol` reuses the
existing index when the name is present, otherwise appends; it never fails. -/
def ensureSymbol (t : SymbolTable) (name : String) : SymbolTable × Int :=
  let i := findSymbol t name
  if i = -1 then
    ({ names := t.names ++ [name] }, (t.names.length : Int))
  else
    (t, i)

/-- getSymbolName from wren_vm.h: the name stored at an index. -/
def getSymbolName (t : SymbolTable) (symbol : Nat) : Option String :=
  t.names.get? symbol

/-- Modelled from the spec (wren_vm.c is absent): `truncateSymbolTable`
releases every entry with index ≥ count. -/
def truncateSymbolTable (t : SymbolTable) (count : Nat) : SymbolTable :=
  { names := t.names.take count }

/-- A mutating symbol-table call: the two interning operations the compiler
issues (`ensureSymbol` or `addSymbol` with some name). -/
inductive SymOp where
  | ensureOp (name : String)
  | addOp (name : String)
deriving DecidableEq, Repr

/-- Apply one interning call to a table, keeping the resulting table. -/
def applyOp (t : SymbolTable) : SymOp → SymbolTable
  | .ensureOp n => (ensureSymbol t n).1
  | .addOp n => (addSymbol t n).1

/-- Run a sequence of interning calls left to right. -/
def runOps (t : SymbolTable) (ops : List SymOp) : SymbolTable :=
  ops.foldl applyOp t

end Wren

namespace Wren.GC

/-!
GC-facing model of the heap.  Per the spec only the GC-visible shape of heap
objects matters here: each object has an identity, an accounted size, and the
set of object references it holds.  The all-objects list (`first` in struct
WrenVM) links every allocated object for sweeping.
-/

/-- A heap object as the collector sees it: identity, accounted allocation
size, and the object references it holds (its GC-visible shape). -/
structure GObj where
  id : Nat
  size : Nat
  refs : List Nat
deriving DecidableEq, Repr

/-- The GC-facing fields of struct WrenVM from wren_vm.h: the all-objects
list `first`, the allocation accounting `totalAllocated` and `nextGC`, the
pinned-root stack `pinned` (head = most recently pinned), and the object
references held by the remaining roots: the global-variable array, the
singleton class slots, the active fiber's value stack, and each live frame's
function reference. -/
structure WrenVM where
  first : List GObj
  totalAllocated : Nat
  nextGC : Nat
  pinned : List Nat
  globalRefs : List Nat
  classRefs : List Nat
  stackRefs : List Nat
  frameFnRefs : List Nat
deriving DecidableEq, Repr

/-- Modelled from the spec (wren_vm.c is absent): `pinObj` pushes the object
onto the head of the VM's pinned-root stack. -/
def pinObj (vm : WrenVM) (obj : Nat) : WrenVM :=
  { vm with pinned := obj :: vm.pinned }

/-- Modelled from the spec (wren_vm.c is absent): `unpinObj` removes the most
recently pinned object from the pinned-root stack. -/
def unpinObj (vm : WrenVM) : WrenVM :=
  { vm with pinned := vm.pinned.tail }

/-- The GC roots, as enumerated by the spec: pinned-root stack, global
variables, singleton classes, the fiber's value stack, and the live frames'
function references. -/
def roots (vm : WrenVM) : List Nat :=
  vm.pinned ++ vm.globalRefs ++ vm.classRefs ++ vm.stackRefs ++ vm.frameFnRefs

/-- One reference edge of the heap graph: some object in the all-objects list
has identity `i` and holds a reference to `j`. -/
def edge (objects : List GObj) (i j : Nat) : Prop :=
  ∃ o ∈ objects, o.id = i ∧ j ∈ o.refs

/-- An object identity is reachable when some root reaches it along reference
edges (reflexive-transitive closure). -/
def Reachable (objects : List GObj) (rs : List Nat) (j : Nat) : Prop :=
  ∃ r ∈ rs, Relation.ReflTransGen (edge objects) r j

/-- All identities referenced by already-marked objects. -/
def succsOf (objects : List GObj) (s : Finset Nat) : Finset Nat :=
  ((objects.filter (fun o => o.id ∈ s)).flatMap (fun o => o.refs)).toFinset

/-- One round of marking: keep everything marked and additionally mark every
identity referenced from a marked object. -/
def expand (objects : List GObj) (s : Finset Nat) : Finset Nat :=
  s ∪ succsOf objects s

/-- An upper bound on how many distinct identities marking can ever see:
the roots together with every reference stored in any object. -/
def markUniverse (objects : List GObj) (rs : List Nat) : Finset Nat :=
  rs.toFinset ∪ (objects.flatMap (fun o => o.refs)).toFinset

/-- Modelled from the spec (wren_vm.c is absent): the mark phase — starting
from the roots, transitively mark everything reachable.  Iterating one more
round than the size of the mark universe is enough to reach the closure. -/
def markSet (objects : List GObj) (rs : List Nat) : Finset Nat :=
  (expand objects)^[(markUniverse objects rs).card + 1] rs.toFinset

/-- Modelled from the spec (wren_vm.c is absent): a collection — mark from
the roots, then sweep the all-objects list, unlinking and freeing every
unmarked object and decrementing `totalAllocated` by the freed sizes;
`nextGC` is recomputed from the surviving total (the growth function is not
fixed by the spec; a doubling is used here). -/
def collectGarbage (vm : WrenVM) : WrenVM :=
  let marked := markSet vm.first (roots vm)
  let freedSize :=
    ((vm.first.filter (fun o => decide (o.id ∉ marked))).map (fun o => o.size)).sum
  { vm with
    first := vm.first.filter (fun o => decide (o.id ∈ marked)),
    totalAllocated := vm.totalAllocated - freedSize,
    nextGC := (vm.totalAllocated - freedSize) * 2 }

/-- A concrete three-object GC state used to exercise a collection: the
global-variable array roots object 0, which references object 1; object 2
only references itself and is garbage. -/
def sampleGCVM : WrenVM :=
  { first := [⟨0, 10, [1]⟩, ⟨1, 5, []⟩, ⟨2, 7, [2]⟩],
    totalAllocated := 22, nextGC := 30, pinned := [],
    globalRefs := [0], classRefs := [], stackRefs := [], frameFnRefs := [] }

end Wren.GC

namespace Wren

/-!
Interpreter-facing model.  The opcode set is the `Code` enum of wren_vm.h
(each instruction here carries its decoded operands); `CallFrame` and
`sFiber` are the structs of the header; the per-opcode semantics follow the
header's comments and the spec's opcode table.  Object layout is out of scope
per the spec, so heap objects carry only what dispatch needs: classes with a
method table and a metaclass (static) method table, lists, and instances.
-/

/-- Built-in primitive operations the object model exposes to dispatch.
Only numeric addition is needed by the scenarios considered here. -/
inductive PrimOp where
  | addNum
deriving DecidableEq, Repr

mutual

/-- Value from wren_value.h (boundary only): an immediate (null, boolean,
number), a function, or a reference to a heap object. -/
inductive Value where
  | nullV : Value
  | boolV : Bool → Value
  | num : Int → Value
  | fnV : ObjFn → Value
  | obj : Nat → Value

/-- ObjFn (boundary only): a compiled function — a flat instruction stream
plus a constant pool. -/
inductive ObjFn where
  | mk : List Instr → List Value → ObjFn

/-- Code from wren_vm.h, with operands decoded into the instruction. -/
inductive Instr where
  | constant : Nat → Instr
  | nullI : Instr
  | falseI : Instr
  | trueI : Instr
  | classI : Instr
  | subclassI : Instr
  | methodInstance : Nat → Nat → Instr
  | methodStatic : Nat → Nat → Instr
  | methodCtor : Nat → Nat → Instr
  | listI : Nat → Instr
  | loadLocal : Nat → Instr
  | storeLocal : Nat → Instr
  | loadGlobal : Nat → Instr
  | storeGlobal : Nat → Instr
  | loadField : Nat → Instr
  | storeField : Nat → Instr
  | dup : Instr
  | popI : Instr
  | call : Nat → Nat → Instr
  | jump : Nat → Instr
  | loop : Nat → Instr
  | jumpIf : Nat → Instr
  | andI : Nat → Instr
  | orI : Nat → Instr
  | isI : Instr
  | endI : Instr

end

/-- The instruction stream of a compiled function. -/
def ObjFn.code : ObjFn → List Instr
  | .mk c _ => c

/-- The constant pool of a compiled function. -/
def ObjFn.constants : ObjFn → List Value
  | .mk _ k => k

/-- A method bound on a class: a built-in primitive or a compiled function. -/
inductive Method where
  | primM : PrimOp → Method
  | fnMethod : ObjFn → Method

/-- ObjClass (boundary only): the per-class method table, keyed by method
symbol, plus the metaclass's (static) method table. -/
structure ObjClass where
  methods : List (Nat × Method)
  staticMethods : List (Nat × Method)

/-- A heap object as the interpreter sees it: a class, a list, or an
instance with its class and field slots. -/
inductive HeapObj where
  | classObj : ObjClass → HeapObj
  | listObj : List Value → HeapObj
  | instObj : Nat → List Value → HeapObj

/-- CallFrame from wren_vm.h: next-instruction index, the function being
executed, and the index of the first stack slot of this activation. -/
structure CallFrame where
  ip : Nat
  fn : ObjFn
  stackStart : Nat

/-- sFiber from wren_vm.h: one bounded value stack (index 0 is the bottom;
`stackSize` is the length) and one bounded call-frame stack (head of the
list is the current, innermost frame). -/
structure Fiber where
  stack : List Value
  frames : List CallFrame

/-- The number of values on the fiber's value stack (`stackSize`). -/
def Fiber.stackSize (f : Fiber) : Nat := f.stack.length

/-- The number of live frames on the fiber (`numFrames`). -/
def Fiber.numFrames (f : Fiber) : Nat := f.frames.length

/-- struct WrenVM from wren_vm.h, interpreter-facing fields: the method and
global symbol tables, the global-variable array, the heap, the singleton
class slots (heap identities), and the `unsupported` singleton value. -/
structure VMState where
  methods : SymbolTable
  globalSymbols : SymbolTable
  globals : List Value
  heap : List HeapObj
  boolClass : Nat
  classClass : Nat
  fnClass : Nat
  listClass : Nat
  nullClass : Nat
  numClass : Nat
  objectClass : Nat
  stringClass : Nat
  unsupported : Value

/-- One interpreter configuration: the VM and its active fiber. -/
structure InterpState where
  vm : VMState
  fiber : Fiber

/-- The outcome of executing one instruction: continue, normal termination
(no frames remain), a program-observable runtime error, or a fatal error
(overflow, corrupt bytecode) that aborts the interpreting call. -/
inductive StepResult where
  | ok : InterpState → StepResult
  | done : InterpState → StepResult
  | rtError : String → InterpState → StepResult
  | fatal : String → StepResult

/-- The one value the AND opcode short-circuits on (header: "if the top of
the stack is false"). -/
def isFalse : Value → Bool
  | .boolV false => true
  | _ => false

/-- Modelled from the spec: truthiness is supplied by the object model; here
every value other than false is truthy, matching the header's "non-false"
wording for OR. -/
def truthy (v : Value) : Bool := ! isFalse v

/-- Run a built-in primitive on the receiver-and-arguments list; `none` is a
type error. -/
def runPrim : PrimOp → List Value → Option Value
  | .addNum, [.num a, .num b] => some (.num (a + b))
  | .addNum, _ => none

/-- The heap identity of a value's class, per the VM's singleton class slots
and, for instances, the instance's own class. -/
def classIdOf (vm : VMState) (v : Value) : Option Nat :=
  match v with
  | .nullV => some vm.nullClass
  | .boolV _ => some vm.boolClass
  | .num _ => some vm.numClass
  | .fnV _ => some vm.fnClass
  | .obj id =>
    match vm.heap.get? id with
    | some (.classObj _) => some vm.classClass
    | some (.listObj _) => some vm.listClass
    | some (.instObj cid _) => some cid
    | none => none

/-- The instance-method table of the class stored at a heap identity. -/
def classMethods (vm : VMState) (cid : Nat) : Option (List (Nat × Method)) :=
  match vm.heap.get? cid with
  | some (.classObj c) => some c.methods
  | _ => none

/-- The method table dispatch consults for a receiver: a class receiver uses
its metaclass (static) table, any other value the method table of its
class. -/
def methodTableOf (vm : VMState) (v : Value) : Option (List (Nat × Method)) :=
  match v with
  | .obj id =>
    match vm.heap.get? id with
    | some (.classObj c) => some c.staticMethods
    | _ => (classIdOf vm v).bind (classMethods vm)
  | _ => (classIdOf vm v).bind (classMethods vm)

/-- Look up a method symbol in a method table. -/
def findMethod (tbl : List (Nat × Method)) (symbol : Nat) : Option Method :=
  (tbl.find? (fun p => p.1 == symbol)).map (fun p => p.2)

/-- Modelled from the spec (wren_vm.c is absent): `callFunction` pushes a new
call frame whose `stackStart` is the position of the first of the `numArgs`
values already on top of the stack, whose `ip` is 0, and whose function is
`fn`; it does not itself execute bytecode. -/
def callFunction (fiber : Fiber) (fn : ObjFn) (numArgs : Nat) : Fiber :=
  { fiber with
    frames := { ip := 0, fn := fn, stackStart := fiber.stack.length - numArgs }
               :: fiber.frames }

end Wren

namespace Wren

/-- Fetch a local slot relative to the frame's window (`stackStart + slot`). -/
def localGet (stack : List Value) (stackStart slot : Nat) : Option Value :=
  stack.get? (stackStart + slot)

/-- Modelled from the spec (wren_vm.c is absent): push a value and advance
the current frame past its instruction; a full value stack is a fatal
overflow. -/
def pushAdvance (vm : VMState) (frame : CallFrame) (rest : List CallFrame)
    (stack : List Value) (v : Value) : StepResult :=
  if stack.length < STACK_SIZE then
    .ok ⟨vm, ⟨stack ++ [v], { frame with ip := frame.ip + 1 } :: rest⟩⟩
  else
    .fatal "stack overflow"

/-- The current frame with its instruction pointer advanced past the
instruction just executed. -/
def bump (frame : CallFrame) : CallFrame :=
  { frame with ip := frame.ip + 1 }

/-- Modelled from the spec (wren_vm.c is absent): execute the current
instruction of the innermost frame.  Semantics of each opcode follow the
comments in wren_vm.h and the spec's opcode table; capacity violations and
malformed bytecode are fatal; does-not-understand and IS on a non-class are
program-observable runtime errors. -/
def stepInstr (vm : VMState) (frame : CallFrame) (rest : List CallFrame)
    (stack : List Value) : Instr → StepResult
  | .constant arg =>
    match frame.fn.constants.get? arg with
    | some v => pushAdvance vm frame rest stack v
    | none => .fatal "constant index out of range"
  | .nullI => pushAdvance vm frame rest stack .nullV
  | .falseI => pushAdvance vm frame rest stack (.boolV false)
  | .trueI => pushAdvance vm frame rest stack (.boolV true)
  | .classI =>
    let vm2 := { vm with heap := vm.heap ++ [.classObj ⟨[], []⟩] }
    pushAdvance vm2 frame rest stack (.obj vm.heap.length)
  | .subclassI =>
    match stack.getLast? with
    | some (.obj sid) =>
      match vm.heap.get? sid with
      | some (.classObj sup) =>
        let vm2 := { vm with heap := vm.heap ++ [.classObj ⟨sup.methods, []⟩] }
        pushAdvance vm2 frame rest stack.dropLast (.obj vm.heap.length)
      | _ => .rtError "subclass of a non-class" ⟨vm, ⟨stack, frame :: rest⟩⟩
    | some _ => .rtError "subclass of a non-class" ⟨vm, ⟨stack, frame :: rest⟩⟩
    | none => .fatal "stack underflow"
  | .methodInstance symbol constIdx =>
    match stack.getLast?, frame.fn.constants.get? constIdx with
    | some (.obj cid), some (.fnV body) =>
      match vm.heap.get? cid with
      | some (.classObj c) =>
        let c2 : ObjClass := { c with methods := (symbol, .fnMethod body) :: c.methods }
        .ok ⟨{ vm with heap := vm.heap.set cid (.classObj c2) },
             ⟨stack, bump frame :: rest⟩⟩
      | _ => .fatal "method target is not a class"
    | _, _ => .fatal "malformed method instruction"
  | .methodStatic symbol constIdx =>
    match stack.getLast?, frame.fn.constants.get? constIdx with
    | some (.obj cid), some (.fnV body) =>
      match vm.heap.get? cid with
      | some (.classObj c) =>
        let c2 : ObjClass :=
          { c with staticMethods := (symbol, .fnMethod body) :: c.staticMethods }
        .ok ⟨{ vm with heap := vm.heap.set cid (.classObj c2) },
             ⟨stack, bump frame :: rest⟩⟩
      | _ => .fatal "method target is not a class"
    | _, _ => .fatal "malformed method instruction"
  | .methodCtor symbol constIdx =>
    match stack.getLast?, frame.fn.constants.get? constIdx with
    | some (.obj cid), some (.fnV body) =>
      match vm.heap.get? cid with
      | some (.classObj c) =>
        let c2 : ObjClass :=
          { c with staticMethods := (symbol, .fnMethod body) :: c.staticMethods }
        .ok ⟨{ vm with heap := vm.heap.set cid (.classObj c2) },
             ⟨stack, bump frame :: rest⟩⟩
      | _ => .fatal "method target is not a class"
    | _, _ => .fatal "malformed method instruction"
  | .listI count =>
    if count ≤ stack.length then
      let elems := stack.drop (stack.length - count)
      let vm2 := { vm with heap := vm.heap ++ [.listObj elems] }
      pushAdvance vm2 frame rest (stack.take (stack.length - count))
        (.obj vm.heap.length)
    else .fatal "stack underflow"
  | .loadLocal slot =>
    match localGet stack frame.stackStart slot with
    | some v => pushAdvance vm frame rest stack v
    | none => .fatal "local slot out of range"
  | .storeLocal slot =>
    match stack.getLast? with
    | some v =>
      if frame.stackStart + slot < stack.length then
        .ok ⟨vm, ⟨stack.set (frame.stackStart + slot) v, bump frame :: rest⟩⟩
      else .fatal "local slot out of range"
    | none => .fatal "stack underflow"
  | .loadGlobal slot =>
    match vm.globals.get? slot with
    | some v => pushAdvance vm frame rest stack v
    | none => .fatal "global slot out of range"
  | .storeGlobal slot =>
    match stack.getLast? with
    | some v =>
      if slot < vm.globals.length then
        .ok ⟨{ vm with globals := vm.globals.set slot v },
             ⟨stack, bump frame :: rest⟩⟩
      else .fatal "global slot out of range"
    | none => .fatal "stack underflow"
  | .loadField slot =>
    match localGet stack frame.stackStart 0 with
    | some (.obj rid) =>
      match vm.heap.get? rid with
      | some (.instObj _ fields) =>
        match fields.get? slot with
        | some v => pushAdvance vm frame rest stack v
        | none => .fatal "field slot out of range"
      | _ => .fatal "receiver has no fields"
    | some _ => .fatal "receiver has no fields"
    | none => .fatal "receiver slot out of range"
  | .storeField slot =>
    match localGet stack frame.stackStart 0, stack.getLast? with
    | some (.obj rid), some v =>
      match vm.heap.get? rid with
      | some (.instObj cid fields) =>
        if slot < fields.length then
          .ok ⟨{ vm with heap := vm.heap.set rid (.instObj cid (fields.set slot v)) },
               ⟨stack, bump frame :: rest⟩⟩
        else .fatal "field slot out of range"
      | _ => .fatal "receiver has no fields"
    | _, _ => .fatal "receiver has no fields"
  | .dup =>
    match stack.getLast? with
    | some v => pushAdvance vm frame rest stack v
    | none => .fatal "stack underflow"
  | .popI =>
    match stack.getLast? with
    | some _ => .ok ⟨vm, ⟨stack.dropLast, bump frame :: rest⟩⟩
    | none => .fatal "stack underflow"
  | .call arity symbol =>
    let numArgs := arity + 1
    if numArgs ≤ stack.length then
      match stack.get? (stack.length - numArgs) with
      | some receiver =>
        match methodTableOf vm receiver with
        | some tbl =>
          match findMethod tbl symbol with
          | some (.primM p) =>
            match runPrim p (stack.drop (stack.length - numArgs)) with
            | some result =>
              .ok ⟨vm, ⟨stack.take (stack.length - numArgs) ++ [result],
                        bump frame :: rest⟩⟩
            | none => .rtError "primitive type error" ⟨vm, ⟨stack, frame :: rest⟩⟩
          | some (.fnMethod body) =>
            if rest.length + 1 < MAX_CALL_FRAMES then
              .ok ⟨vm, callFunction ⟨stack, bump frame :: rest⟩ body numArgs⟩
            else .fatal "call frame overflow"
          | none => .rtError "does not understand" ⟨vm, ⟨stack, frame :: rest⟩⟩
        | none => .fatal "receiver has no class"
      | none => .fatal "stack underflow"
    else .fatal "stack underflow"
  | .jump off =>
    .ok ⟨vm, ⟨stack, { frame with ip := frame.ip + 1 + off } :: rest⟩⟩
  | .loop off =>
    match stack.getLast? with
    | some _ =>
      if off ≤ frame.ip + 1 then
        .ok ⟨vm, ⟨stack.dropLast, { frame with ip := frame.ip + 1 - off } :: rest⟩⟩
      else .fatal "loop target out of range"
    | none => .fatal "stack underflow"
  | .jumpIf off =>
    match stack.getLast? with
    | some v =>
      if truthy v then
        .ok ⟨vm, ⟨stack.dropLast, bump frame :: rest⟩⟩
      else
        .ok ⟨vm, ⟨stack.dropLast, { frame with ip := frame.ip + 1 + off } :: rest⟩⟩
    | none => .fatal "stack underflow"
  | .andI off =>
    match stack.getLast? with
    | some v =>
      if isFalse v then
        .ok ⟨vm, ⟨stack, { frame with ip := frame.ip + 1 + off } :: rest⟩⟩
      else
        .ok ⟨vm, ⟨stack.dropLast, bump frame :: rest⟩⟩
    | none => .fatal "stack underflow"
  | .orI off =>
    match stack.getLast? with
    | some v =>
      if isFalse v then
        .ok ⟨vm, ⟨stack.dropLast, bump frame :: rest⟩⟩
      else
        .ok ⟨vm, ⟨stack, { frame with ip := frame.ip + 1 + off } :: rest⟩⟩
    | none => .fatal "stack underflow"
  | .isI =>
    match stack.getLast? with
    | some a =>
      let stack1 := stack.dropLast
      match stack1.getLast? with
      | some b =>
        match a with
        | .obj cid =>
          match vm.heap.get? cid with
          | some (.classObj _) =>
            pushAdvance vm frame rest stack1.dropLast
              (.boolV (classIdOf vm b == some cid))
          | _ => .rtError "right operand of is must be a class" ⟨vm, ⟨stack, frame :: rest⟩⟩
        | _ => .rtError "right operand of is must be a class" ⟨vm, ⟨stack, frame :: rest⟩⟩
      | none => .fatal "stack underflow"
    | none => .fatal "stack underflow"
  | .endI =>
    .ok ⟨vm, ⟨stack, rest⟩⟩

/-- Modelled from the spec (wren_vm.c is absent): one fetch-decode-execute
cycle.  With no frames left, execution is complete; running off the end of a
function's bytecode is fatal. -/
def step (s : InterpState) : StepResult :=
  match s.fiber.frames with
  | [] => .done s
  | frame :: rest =>
    match frame.fn.code.get? frame.ip with
    | some instr => stepInstr s.vm frame rest s.fiber.stack instr
    | none => .fatal "instruction pointer out of range"

/-- The result of an `interpret` call: a final value, a runtime error, a
fatal error, or exhaustion of the step budget of this bounded model. -/
inductive InterpResult where
  | value : Value → InterpResult
  | runtimeError : String → InterpResult
  | fatalError : String → InterpResult
  | outOfFuel : InterpResult

/-- Modelled from the spec (wren_vm.c is absent): the interpreter loop —
execute instructions until no frames remain, then return the top of the
value stack if any, otherwise the VM's `unsupported` singleton. -/
def runLoop : Nat → InterpState → InterpResult
  | 0, _ => .outOfFuel
  | fuel + 1, s =>
    match step s with
    | .done s2 =>
      match s2.fiber.stack.getLast? with
      | some v => .value v
      | none => .value s2.vm.unsupported
    | .ok s2 => runLoop fuel s2
    | .rtError msg _ => .runtimeError msg
    | .fatal msg => .fatalError msg

/-- Modelled from the spec (wren_vm.c is absent): `interpret` uses a fresh
fiber, pushes the initial frame for `fn` with `callFunction` and zero
arguments, and drives the interpreter loop to completion. -/
def interpret (fuel : Nat) (vm : VMState) (fn : ObjFn) : InterpResult :=
  runLoop fuel ⟨vm, callFunction ⟨[], []⟩ fn 0⟩

/-- One interpreter step relating two configurations. -/
def stepsTo (a b : InterpState) : Prop :=
  Relation.ReflTransGen (fun x y => step x = .ok y) a b

/-- The fiber capacity invariant of wren_vm.h: the value stack fits in its
STACK_SIZE array and the frame stack in its MAX_CALL_FRAMES array. -/
def FiberInv (f : Fiber) : Prop :=
  f.stackSize ≤ STACK_SIZE ∧ f.numFrames ≤ MAX_CALL_FRAMES

/-- A minimal concrete VM used to exercise the interpreter on closed runs. -/
def sampleVM : VMState :=
  { methods := ⟨[]⟩, globalSymbols := ⟨[]⟩, globals := [], heap := [],
    boolClass := 0, classClass := 0, fnClass := 0, listClass := 0,
    nullClass := 0, numClass := 0, objectClass := 0, stringClass := 0,
    unsupported := .nullV }

/-- A concrete VM whose heap holds one class (identity 0, the class of
numbers) binding method symbol 0 to the numeric-add primitive. -/
def sampleNumVM : VMState :=
  { sampleVM with heap := [.classObj ⟨[(0, .primM .addNum)], []⟩] }

end Wren

/-! Helper lemmas about symbol lookup. -/

namespace Wren

theorem findSymbolIn_nonneg_of_ne (l : List String) (n : String)
    (h : findSymbolIn l n ≠ -1) : 0 ≤ findSymbolIn l n := by
  induction l with
  | nil => simp [findSymbolIn] at h
  | cons a rest ih =>
    by_cases ha : a = n
    · simp [findSymbolIn, ha]
    · simp only [findSymbolIn, if_neg ha] at h ⊢
      by_cases hr : findSymbolIn rest n = -1
      · simp [hr] at h
      · simp only [if_neg hr]
        have := ih hr
        omega

theorem findSymbolIn_eq_neg_one_iff (l : List String) (n : String) :
    findSymbolIn l n = -1 ↔ n ∉ l := by
  induction l with
  | nil => simp [findSymbolIn]
  | cons a rest ih =>
    by_cases ha : a = n
    · simp [findSymbolIn, ha]
    · simp only [findSymbolIn, if_neg ha]
      by_cases hr : findSymbolIn rest n = -1
      · simp only [if_pos hr, true_iff]
        intro hmem
        rcases List.mem_cons.mp hmem with h1 | h2
        · exact ha h1.symm
        · exact (ih.mp hr) h2
      · simp only [if_neg hr]
        have hpos := findSymbolIn_nonneg_of_ne rest n hr
        constructor
        · intro h; omega
        · intro hnot
          exact absurd (List.mem_cons_of_mem a (by
            by_contra hna
            exact hr (ih.mpr hna))) hnot

theorem findSymbolIn_mem (l : List String) (n : String) (h : n ∈ l) :
    findSymbolIn l n ≠ -1 := by
  intro hc
  exact (findSymbolIn_eq_neg_one_iff l n).mp hc h

/-- A found index points at the name. -/
theorem findSymbolIn_get (l : List String) (n : String) (k : Nat)
    (h : findSymbolIn l n = (k : Int)) : l.get? k = some n := by
  induction l generalizing k with
  | nil => simp [findSymbolIn] at h
  | cons a rest ih =>
    by_cases ha : a = n
    · simp only [findSymbolIn, if_pos ha] at h
      have : k = 0 := by omega
      subst this
      simp [ha]
    · simp only [findSymbolIn, if_neg ha] at h
      by_cases hr : findSymbolIn rest n = -1
      · simp [hr] at h
      · simp only [if_neg hr] at h
        have hpos := findSymbolIn_nonneg_of_ne rest n hr
        have hk : 1 ≤ k := by omega
        have : findSymbolIn rest n = ((k - 1 : Nat) : Int) := by omega
        have := ih (k - 1) this
        cases k with
        | zero => omega
        | succ m => simpa using this

/-- Appending entries does not change an index already found. -/
theorem findSymbolIn_append_of_found (l l2 : List String) (n : String)
    (h : findSymbolIn l n ≠ -1) :
    findSymbolIn (l ++ l2) n = findSymbolIn l n := by
  induction l with
  | nil => simp [findSymbolIn] at h
  | cons a rest ih =>
    by_cases ha : a = n
    · simp [findSymbolIn, ha]
    · simp only [findSymbolIn, if_neg ha, List.cons_append, List.append_eq] at h ⊢
      by_cases hr : findSymbolIn rest n = -1
      · simp [hr] at h
      · rw [ih hr]

/-- A name absent from the prefix is found at its position in the suffix. -/
theorem findSymbolIn_append_of_absent (l l2 : List String) (n : String)
    (h : n ∉ l) :
    findSymbolIn (l ++ l2) n =
      (if findSymbolIn l2 n = -1 then -1 else findSymbolIn l2 n + l.length) := by
  induction l with
  | nil => simp; by_cases h2 : findSymbolIn l2 n = -1 <;> simp [h2]
  | cons a rest ih =>
    have ha : a ≠ n := fun hc => h (by simp [hc])
    have hrest : n ∉ rest := fun hc => h (List.mem_cons_of_mem a hc)
    rw [List.cons_append]
    simp only [findSymbolIn, if_neg ha]
    rw [ih hrest]
    by_cases h2 : findSymbolIn l2 n = -1
    · simp [h2]
    · have h3 := findSymbolIn_nonneg_of_ne l2 n h2
      simp only [if_neg h2, List.length_cons]
      have hne1 : findSymbolIn l2 n + (rest.length : Int) ≠ -1 := by omega
      rw [if_neg hne1]
      push_cast
      omega

/-- In a duplicate-free list every position finds itself. -/
theorem findSymbolIn_nodup_get (l : List String) (hnd : l.Nodup)
    (i : Nat) (hi : i < l.length) :
    findSymbolIn l (l.get ⟨i, hi⟩) = (i : Int) := by
  induction l generalizing i with
  | nil => simp at hi
  | cons a rest ih =>
    cases i with
    | zero => simp [findSymbolIn]
    | succ m =>
      have hm : m < rest.length := by simpa using hi
      have hget : (a :: rest).get ⟨m + 1, hi⟩ = rest.get ⟨m, hm⟩ := rfl
      rw [hget]
      have hmem : rest.get ⟨m, hm⟩ ∈ rest := List.get_mem rest m hm
      have ha : a ≠ rest.get ⟨m, hm⟩ := by
        intro hc
        exact (List.nodup_cons.mp hnd).1 (hc ▸ hmem)
      simp only [findSymbolIn, if_neg ha]
      rw [ih (List.nodup_cons.mp hnd).2 m hm]
      have : ((m : Int)) ≠ -1 := by omega
      rw [if_neg this]
      push_cast; omega

end Wren

namespace Wren.GC

/-- C2: The pinned-root stack is strictly LIFO: `pinObj` pushes onto the head
of the VM's pinned list and `unpinObj` removes exactly the most recently
pinned entry; pin-then-unpin restores any VM state; after pinning A then B,
one unpin removes B (not A) and a second unpin (from an initially empty
pinned stack) leaves the pinned-root stack empty. -/
theorem pin_unpin_lifo (vm : WrenVM) (a b : Nat) :
    (pinObj vm a).pinned = a :: vm.pinned
    ∧ unpinObj (pinObj vm a) = vm
    ∧ unpinObj (pinObj (pinObj vm a) b) = pinObj vm a
    ∧ (unpinObj (unpinObj (pinObj (pinObj vm a) b))).pinned = vm.pinned
    ∧ (vm.pinned = [] →
        (unpinObj (unpinObj (pinObj (pinObj vm a) b))).pinned = []) := by
  refine ⟨rfl, rfl, rfl, rfl, fun h => h⟩

/-- Witness for C2 at a concrete VM state. -/
theorem pin_unpin_lifo_witness :
    (pinObj ⟨[], 0, 0, [], [], [], [], []⟩ 5).pinned = [5]
    ∧ unpinObj (pinObj ⟨[], 0, 0, [], [], [], [], []⟩ 5)
        = ⟨[], 0, 0, [], [], [], [], []⟩
    ∧ unpinObj (pinObj (pinObj ⟨[], 0, 0, [], [], [], [], []⟩ 5) 7)
        = pinObj ⟨[], 0, 0, [], [], [], [], []⟩ 5
    ∧ (unpinObj (unpinObj (pinObj (pinObj ⟨[], 0, 0, [], [], [], [], []⟩ 5) 7))).pinned
        = []
    ∧ (([] : List Nat) = [] →
        (unpinObj (unpinObj (pinObj (pinObj ⟨[], 0, 0, [], [], [], [], []⟩ 5) 7))).pinned
          = []) :=
  pin_unpin_lifo ⟨[], 0, 0, [], [], [], [], []⟩ 5 7

end Wren.GC

namespace Wren

/-- C6: On a table already containing the name, `addSymbol` fails with -1 and
leaves the table (and its count) unchanged; on a fresh name it appends and
returns the new index, the previous count.  Adding the same name twice to an
empty table returns index 0, then fails, leaving count 1. -/
theorem addSymbol_spec :
    (∀ t name, name ∈ t.names →
      addSymbol t name = (t, -1) ∧ (addSymbol t name).1.count = t.count)
    ∧ (∀ t name, name ∉ t.names →
      addSymbol t name = ({ names := t.names ++ [name] }, (t.count : Int)))
    ∧ (addSymbol initSymbolTable "x" = (⟨["x"]⟩, 0)
      ∧ addSymbol (addSymbol initSymbolTable "x").1 "x" = ((⟨["x"]⟩ : SymbolTable), -1)
      ∧ (addSymbol (addSymbol initSymbolTable "x").1 "x").1.count = 1) := by
  refine ⟨?_, ?_, by decide, by decide, by decide⟩
  · intro t name hmem
    have h := findSymbolIn_mem t.names name hmem
    refine ⟨?_, ?_⟩ <;> simp [addSymbol, findSymbol, if_neg h]
  · intro t name hmem
    have h := (findSymbolIn_eq_neg_one_iff t.names name).mpr hmem
    simp only [addSymbol, findSymbol, if_pos h, SymbolTable.count]

/-- Witness for C6 at concrete tables. -/
theorem addSymbol_spec_witness :
    addSymbol ⟨["a"]⟩ "a" = (⟨["a"]⟩, -1)
    ∧ addSymbol ⟨["a"]⟩ "b" = (⟨["a", "b"]⟩, 1) :=
  ⟨(addSymbol_spec.1 ⟨["a"]⟩ "a" (by simp)).1,
   by
     have h := addSymbol_spec.2.1 ⟨["a"]⟩ "b" (by simp)
     simpa [SymbolTable.count] using h⟩

/-- C3: With the arguments already on top of the stack and room for one more
frame, `callFunction` pushes exactly one frame with `ip = 0`, the given
function, and `stackStart` at the first of the `numArgs` values, so local
slot `i` of the new frame reads the i-th of those values (slot 0 the
receiver, slot 1 the first argument); the value stack, its size, and the
existing frames are untouched and no bytecode runs. -/
theorem callFunction_spec (fiber : Fiber) (fn : ObjFn) (numArgs : Nat)
    (pre args : List Value)
    (hstack : fiber.stack = pre ++ args)
    (hlen : args.length = numArgs)
    (_hcap : fiber.numFrames < MAX_CALL_FRAMES) :
    (callFunction fiber fn numArgs).numFrames = fiber.numFrames + 1
    ∧ (callFunction fiber fn numArgs).frames.head?
        = some { ip := 0, fn := fn, stackStart := fiber.stackSize - numArgs }
    ∧ fiber.stackSize - numArgs = pre.length
    ∧ (callFunction fiber fn numArgs).stack = fiber.stack
    ∧ (callFunction fiber fn numArgs).stackSize = fiber.stackSize
    ∧ (∀ i, i < numArgs →
        localGet (callFunction fiber fn numArgs).stack pre.length i = args.get? i)
    ∧ (callFunction fiber fn numArgs).frames.tail = fiber.frames := by
  have hsz : fiber.stackSize = pre.length + numArgs := by
    simp [Fiber.stackSize, hstack, hlen]
  refine ⟨rfl, rfl, by omega, rfl, rfl, ?_, rfl⟩
  intro i hi
  simp only [callFunction, localGet, hstack]
  rw [List.get?_append_right (by omega)]
  congr 1
  omega

/-- Witness for C3 at a concrete fiber and function. -/
theorem callFunction_spec_witness :
    (callFunction ⟨[.num 9, .num 2, .num 3], []⟩ (.mk [] []) 2).numFrames
        = (⟨[.num 9, .num 2, .num 3], []⟩ : Fiber).numFrames + 1
    ∧ (callFunction ⟨[.num 9, .num 2, .num 3], []⟩ (.mk [] []) 2).frames.head?
        = some { ip := 0, fn := .mk [] [],
                 stackStart := (⟨[.num 9, .num 2, .num 3], []⟩ : Fiber).stackSize - 2 }
    ∧ (⟨[.num 9, .num 2, .num 3], []⟩ : Fiber).stackSize - 2
        = [Value.num 9].length
    ∧ (callFunction ⟨[.num 9, .num 2, .num 3], []⟩ (.mk [] []) 2).stack
        = (⟨[.num 9, .num 2, .num 3], []⟩ : Fiber).stack
    ∧ (callFunction ⟨[.num 9, .num 2, .num 3], []⟩ (.mk [] []) 2).stackSize
        = (⟨[.num 9, .num 2, .num 3], []⟩ : Fiber).stackSize
    ∧ (∀ i, i < 2 →
        localGet (callFunction ⟨[.num 9, .num 2, .num 3], []⟩ (.mk [] []) 2).stack
          [Value.num 9].length i = [Value.num 2, Value.num 3].get? i)
    ∧ (callFunction ⟨[.num 9, .num 2, .num 3], []⟩ (.mk [] []) 2).frames.tail
        = (⟨[.num 9, .num 2, .num 3], []⟩ : Fiber).frames :=
  callFunction_spec ⟨[.num 9, .num 2, .num 3], []⟩ (.mk [] []) 2
    [.num 9] [.num 2, .num 3] rfl rfl (by simp [Fiber.numFrames, MAX_CALL_FRAMES])

end Wren

namespace Wren

/-! Helper lemmas for symbol-index stability across interning sequences. -/

theorem ensureSymbol_found (t : SymbolTable) (n : String) (h : n ∈ t.names) :
    ensureSymbol t n = (t, findSymbol t n) := by
  have hne := findSymbolIn_mem t.names n h
  simp only [ensureSymbol, findSymbol, if_neg hne]

/-- Interning establishes the index: after a successful `ensureSymbol` or
`addSymbol`, the returned index is a natural number that finds the name and
names the index. -/
theorem intern_establishes (t t2 : SymbolTable) (n : String) (i : Int)
    (h : ensureSymbol t n = (t2, i) ∨ (addSymbol t n = (t2, i) ∧ i ≠ -1)) :
    ∃ k : Nat, i = (k : Int) ∧ findSymbol t2 n = (k : Int)
      ∧ t2.names.get? k = some n := by
  by_cases hmem : n ∈ t.names
  · have hne := findSymbolIn_mem t.names n hmem
    rcases h with h | ⟨h, hi⟩
    · rw [ensureSymbol_found t n hmem] at h
      injection h with ht2 hi2
      subst ht2
      subst hi2
      have hnn : (0 : Int) ≤ findSymbolIn t.names n :=
        findSymbolIn_nonneg_of_ne t.names n hne
      refine ⟨(findSymbol t n).toNat, (Int.toNat_of_nonneg hnn).symm,
        (Int.toNat_of_nonneg hnn).symm,
        findSymbolIn_get t.names n _ (Int.toNat_of_nonneg hnn).symm⟩
    · simp only [addSymbol, findSymbol, if_neg hne] at h
      injection h with ht2 hi2
      exact absurd hi2.symm hi
  · have heq := (findSymbolIn_eq_neg_one_iff t.names n).mpr hmem
    have hres : t2 = { names := t.names ++ [n] } ∧ i = (t.names.length : Int) := by
      rcases h with h | ⟨h, _⟩
      · simp only [ensureSymbol, findSymbol, if_pos heq] at h
        injection h with h1 h2
        exact ⟨h1.symm, h2.symm⟩
      · simp only [addSymbol, findSymbol, if_pos heq] at h
        injection h with h1 h2
        exact ⟨h1.symm, h2.symm⟩
    obtain ⟨ht, hi⟩ := hres
    refine ⟨t.names.length, hi, ?_, ?_⟩
    · rw [ht]
      show findSymbolIn (t.names ++ [n]) n = _
      rw [findSymbolIn_append_of_absent t.names [n] n hmem]
      simp [findSymbolIn]
    · rw [ht]
      show (t.names ++ [n]).get? t.names.length = some n
      rw [List.get?_append_right (le_refl _)]
      simp

/-- Every interning call only appends to the name list. -/
theorem applyOp_extends (t : SymbolTable) (op : SymOp) :
    ∃ suffix, (applyOp t op).names = t.names ++ suffix := by
  cases op with
  | ensureOp n =>
    by_cases h : findSymbolIn t.names n = -1
    · exact ⟨[n], by simp [applyOp, ensureSymbol, findSymbol, if_pos h]⟩
    · exact ⟨[], by simp [applyOp, ensureSymbol, findSymbol, if_neg h]⟩
  | addOp n =>
    by_cases h : findSymbolIn t.names n = -1
    · exact ⟨[n], by simp [applyOp, addSymbol, findSymbol, if_pos h]⟩
    · exact ⟨[], by simp [applyOp, addSymbol, findSymbol, if_neg h]⟩

/-- A sequence of interning calls only appends to the name list. -/
theorem runOps_extends (t : SymbolTable) (ops : List SymOp) :
    ∃ suffix, (runOps t ops).names = t.names ++ suffix := by
  induction ops generalizing t with
  | nil => exact ⟨[], by simp [runOps]⟩
  | cons op rest ih =>
    obtain ⟨s1, h1⟩ := applyOp_extends t op
    obtain ⟨s2, h2⟩ := ih (applyOp t op)
    exact ⟨s1 ++ s2, by
      show (runOps (applyOp t op) rest).names = _
      rw [h2, h1, List.append_assoc]⟩

/-- An established index survives appending: lookup still finds it and the
index still names the same string. -/
theorem index_stable_append (names suffix : List String) (n : String) (k : Nat)
    (hfind : findSymbolIn names n = (k : Int))
    (hget : names.get? k = some n) :
    findSymbolIn (names ++ suffix) n = (k : Int)
      ∧ (names ++ suffix).get? k = some n := by
  constructor
  · rw [findSymbolIn_append_of_found names suffix n (by rw [hfind]; omega)]
    exact hfind
  · have hk : k < names.length := by
      by_contra hge
      rw [List.get?_eq_none.mpr (by omega)] at hget
      exact Option.noConfusion hget
    rw [List.get?_append hk]
    exact hget

end Wren

namespace Wren

/-- C7: `ensureSymbol` never fails; on a present name it returns the existing
index and leaves the table unchanged, and it is idempotent; moreover every
index successfully returned by `ensureSymbol` or `addSymbol` for a name keeps
resolving that name via `findSymbol`, and naming it via `getSymbolName`,
across any later sequence of ensure/add calls. -/
theorem ensureSymbol_spec :
    (∀ t n, 0 ≤ (ensureSymbol t n).2)
    ∧ (∀ t n, n ∈ t.names → ensureSymbol t n = (t, findSymbol t n))
    ∧ (∀ t n, ensureSymbol (ensureSymbol t n).1 n = ensureSymbol t n)
    ∧ (∀ t t2 n i,
        (ensureSymbol t n = (t2, i) ∨ (addSymbol t n = (t2, i) ∧ i ≠ -1)) →
        ∀ ops, findSymbol (runOps t2 ops) n = i
          ∧ getSymbolName (runOps t2 ops) i.toNat = some n) := by
  refine ⟨?_, fun t n h => ensureSymbol_found t n h, ?_, ?_⟩
  · intro t n
    by_cases h : findSymbol t n = -1
    · simp [ensureSymbol, h]
    · simp only [ensureSymbol, if_neg h]
      exact findSymbolIn_nonneg_of_ne t.names n h
  · intro t n
    obtain ⟨k, hk, hfind, hget⟩ :=
      intern_establishes t (ensureSymbol t n).1 n (ensureSymbol t n).2 (Or.inl rfl)
    have hmem : n ∈ (ensureSymbol t n).1.names := List.get?_mem hget
    rw [ensureSymbol_found _ n hmem, hfind, ← hk]
  · intro t t2 n i h ops
    obtain ⟨k, hk, hfind, hget⟩ := intern_establishes t t2 n i h
    obtain ⟨suffix, hsuf⟩ := runOps_extends t2 ops
    obtain ⟨h1, h2⟩ := index_stable_append t2.names suffix n k hfind hget
    subst hk
    refine ⟨?_, ?_⟩
    · show findSymbolIn (runOps t2 ops).names n = _
      rw [hsuf]
      exact h1
    · show (runOps t2 ops).names.get? (Int.toNat _) = some n
      rw [hsuf]
      simpa using h2

/-- Witness for C7 at concrete tables and a concrete later call sequence. -/
theorem ensureSymbol_spec_witness :
    (0 ≤ (ensureSymbol ⟨["m"]⟩ "m").2)
    ∧ ensureSymbol ⟨["m"]⟩ "m" = (⟨["m"]⟩, findSymbol ⟨["m"]⟩ "m")
    ∧ ensureSymbol (ensureSymbol ⟨[]⟩ "m").1 "m" = ensureSymbol ⟨[]⟩ "m"
    ∧ (findSymbol (runOps ⟨["m"]⟩ [.addOp "g"]) "m" = 0
       ∧ getSymbolName (runOps ⟨["m"]⟩ [.addOp "g"]) (Int.toNat 0) = some "m") :=
  ⟨ensureSymbol_spec.1 ⟨["m"]⟩ "m",
   ensureSymbol_spec.2.1 ⟨["m"]⟩ "m" (by simp),
   ensureSymbol_spec.2.2.1 ⟨[]⟩ "m",
   ensureSymbol_spec.2.2.2 ⟨[]⟩ ⟨["m"]⟩ "m" 0 (Or.inl (by decide)) [.addOp "g"]⟩

/-- Running `ensureSymbol` over a duplicate-free list of fresh names appends
exactly those names in order. -/
theorem runOps_ensure_fresh (names : List String) (t : SymbolTable)
    (hnd : names.Nodup) (hfresh : ∀ x ∈ names, x ∉ t.names) :
    (runOps t (names.map SymOp.ensureOp)).names = t.names ++ names := by
  induction names generalizing t with
  | nil => simp [runOps]
  | cons n rest ih =>
    have hn : n ∉ t.names := hfresh n (by simp)
    have happ : applyOp t (.ensureOp n) = ⟨t.names ++ [n]⟩ := by
      simp [applyOp, ensureSymbol, findSymbol,
        (findSymbolIn_eq_neg_one_iff t.names n).mpr hn]
    have hfresh2 : ∀ x ∈ rest, x ∉ (⟨t.names ++ [n]⟩ : SymbolTable).names := by
      intro x hx
      simp only [List.mem_append, List.mem_singleton]
      push_neg
      refine ⟨fun hc => hfresh x (by simp [hx]) hc, fun hc => ?_⟩
      exact (List.nodup_cons.mp hnd).1 (hc ▸ hx)
    show (runOps (applyOp t (.ensureOp n)) (rest.map .ensureOp)).names = _
    rw [happ, ih _ (List.nodup_cons.mp hnd).2 hfresh2]
    simp

end Wren

namespace Wren

/-- C8: after N ensure calls with distinct names on an empty table (producing
indices 0..N-1) and `truncateSymbolTable` back to k ≤ N, exactly the entries
with index < k remain: each of the first k names still finds its original
index, and every name whose index was ≥ k is reported not-found (-1). -/
theorem truncateSymbolTable_spec (names : List String) (k : Nat)
    (hnd : names.Nodup) (hk : k ≤ names.length) :
    (runOps initSymbolTable (names.map SymOp.ensureOp)).names = names
    ∧ (∀ i (hi : i < k),
        findSymbol
          (truncateSymbolTable (runOps initSymbolTable (names.map SymOp.ensureOp)) k)
          (names.get ⟨i, lt_of_lt_of_le hi hk⟩) = (i : Int))
    ∧ (∀ i (hi : i < names.length), k ≤ i →
        findSymbol
          (truncateSymbolTable (runOps initSymbolTable (names.map SymOp.ensureOp)) k)
          (names.get ⟨i, hi⟩) = -1) := by
  have hrun : (runOps initSymbolTable (names.map SymOp.ensureOp)).names = names := by
    have h := runOps_ensure_fresh names initSymbolTable hnd
      (by intro x _; simp [initSymbolTable])
    simpa [initSymbolTable] using h
  have htrunc :
      (truncateSymbolTable (runOps initSymbolTable (names.map SymOp.ensureOp)) k).names
        = names.take k := by
    simp [truncateSymbolTable, hrun]
  have htklen : (names.take k).length = k := by
    rw [List.length_take]
    omega
  have htknd : (names.take k).Nodup := (List.take_sublist k names).nodup hnd
  refine ⟨hrun, ?_, ?_⟩
  · intro i hi
    show findSymbolIn _ _ = _
    rw [htrunc]
    have hi2 : i < (names.take k).length := by omega
    have hget : (names.take k).get ⟨i, hi2⟩ = names.get ⟨i, lt_of_lt_of_le hi hk⟩ := by
      have h0 : (names.take k).get? i = names.get? i := List.get?_take hi
      rw [List.get?_eq_get hi2, List.get?_eq_get (lt_of_lt_of_le hi hk)] at h0
      exact Option.some.inj h0
    rw [← hget]
    exact findSymbolIn_nodup_get (names.take k) htknd i hi2
  · intro i hi hki
    show findSymbolIn _ _ = _
    rw [htrunc]
    apply (findSymbolIn_eq_neg_one_iff _ _).mpr
    intro hmem
    obtain ⟨⟨j, hj⟩, hjeq⟩ := List.mem_iff_get.mp hmem
    have hjk : j < k := by omega
    have hjq : names.get? j = names.get? i := by
      have h1 : (names.take k).get? j = names.get? j := List.get?_take hjk
      rw [List.get?_eq_get hj] at h1
      rw [← h1, hjeq, List.get?_eq_get hi]
    have : j = i := List.get?_inj (by omega) hnd hjq
    omega

/-- Witness for C8 at a concrete three-name table truncated to one entry. -/
theorem truncateSymbolTable_spec_witness :
    (runOps initSymbolTable (["a", "b", "c"].map SymOp.ensureOp)).names = ["a", "b", "c"]
    ∧ (∀ i (hi : i < 1),
        findSymbol
          (truncateSymbolTable (runOps initSymbolTable (["a", "b", "c"].map SymOp.ensureOp)) 1)
          (["a", "b", "c"].get ⟨i, lt_of_lt_of_le hi (by simp)⟩) = (i : Int))
    ∧ (∀ i (hi : i < (["a", "b", "c"] : List String).length), 1 ≤ i →
        findSymbol
          (truncateSymbolTable (runOps initSymbolTable (["a", "b", "c"].map SymOp.ensureOp)) 1)
          (["a", "b", "c"].get ⟨i, hi⟩) = -1) :=
  truncateSymbolTable_spec ["a", "b", "c"] 1 (by simp) (by simp)

end Wren

namespace Wren

/-- Appending one element makes it the last. -/
theorem getLast?_append_singleton (l : List Value) (a : Value) :
    (l ++ [a]).getLast? = some a :=
  List.getLast?_concat l

/-- Dropping the last element of an appended singleton gives back the
prefix. -/
theorem dropLast_append_singleton (l : List Value) (a : Value) :
    (l ++ [a]).dropLast = l := by
  simp

/-- C9: AND and OR short-circuit leaving the deciding value on the stack,
not a normalized boolean: AND on a false top advances ip by the operand and
keeps the value, otherwise pops it and continues; OR on a truthy (non-false)
top advances ip by the operand and keeps the value, otherwise pops it and
continues. -/
theorem and_or_short_circuit_spec (s : InterpState) (frame : CallFrame)
    (rest : List CallFrame) (pre : List Value) (v : Value) (off : Nat)
    (hframes : s.fiber.frames = frame :: rest)
    (hstack : s.fiber.stack = pre ++ [v]) :
    (frame.fn.code.get? frame.ip = some (.andI off) → isFalse v = true →
      step s = .ok ⟨s.vm, ⟨s.fiber.stack,
        { frame with ip := frame.ip + 1 + off } :: rest⟩⟩)
    ∧ (frame.fn.code.get? frame.ip = some (.andI off) → isFalse v = false →
      step s = .ok ⟨s.vm, ⟨pre, { frame with ip := frame.ip + 1 } :: rest⟩⟩)
    ∧ (frame.fn.code.get? frame.ip = some (.orI off) → truthy v = true →
      step s = .ok ⟨s.vm, ⟨s.fiber.stack,
        { frame with ip := frame.ip + 1 + off } :: rest⟩⟩)
    ∧ (frame.fn.code.get? frame.ip = some (.orI off) → truthy v = false →
      step s = .ok ⟨s.vm, ⟨pre, { frame with ip := frame.ip + 1 } :: rest⟩⟩) := by
  refine ⟨?_, ?_, ?_, ?_⟩ <;> intro hcode hv <;>
    simp only [step, hframes, hcode] <;>
    simp only [stepInstr, hstack, getLast?_append_singleton,
      dropLast_append_singleton, bump]
  · rw [if_pos hv]
  · rw [if_neg (by simp [hv])]
  · rw [if_neg (by simp only [truthy] at hv; simpa using hv)]
  · rw [if_pos (by simp only [truthy] at hv; simpa using hv)]

end Wren

namespace Wren

/-- Witness for C9: AND on a false top jumps and keeps the value; OR on a
truthy top jumps and keeps the value. -/
theorem and_or_short_circuit_spec_witness :
    step ⟨sampleVM, ⟨[.boolV false], [⟨0, .mk [.andI 3] [], 0⟩]⟩⟩
      = .ok ⟨sampleVM, ⟨[.boolV false], [⟨4, .mk [.andI 3] [], 0⟩]⟩⟩
    ∧ step ⟨sampleVM, ⟨[.num 1], [⟨0, .mk [.orI 3] [], 0⟩]⟩⟩
      = .ok ⟨sampleVM, ⟨[.num 1], [⟨4, .mk [.orI 3] [], 0⟩]⟩⟩ :=
  ⟨(and_or_short_circuit_spec ⟨sampleVM, ⟨[.boolV false], [⟨0, .mk [.andI 3] [], 0⟩]⟩⟩
      ⟨0, .mk [.andI 3] [], 0⟩ [] [] (.boolV false) 3 rfl rfl).1 rfl rfl,
   (and_or_short_circuit_spec ⟨sampleVM, ⟨[.num 1], [⟨0, .mk [.orI 3] [], 0⟩]⟩⟩
      ⟨0, .mk [.orI 3] [], 0⟩ [] [] (.num 1) 3 rfl rfl).2.2.1 rfl rfl⟩

/-- C5: a CALL opcode whose method symbol has no entry in the receiver's
class's method table raises a program-observable "does not understand"
runtime error, not a fatal condition, and the VM state is not corrupted: the
global-variable table, both symbol tables, the value stack and the frames
are carried over unchanged. -/
theorem call_method_not_found_spec (s : InterpState) (frame : CallFrame)
    (rest : List CallFrame) (arity symbol : Nat) (receiver : Value)
    (tbl : List (Nat × Method))
    (hframes : s.fiber.frames = frame :: rest)
    (hcode : frame.fn.code.get? frame.ip = some (.call arity symbol))
    (hlen : arity + 1 ≤ s.fiber.stack.length)
    (hrecv : s.fiber.stack.get? (s.fiber.stack.length - (arity + 1)) = some receiver)
    (htbl : methodTableOf s.vm receiver = some tbl)
    (hnf : findMethod tbl symbol = none) :
    step s = .rtError "does not understand" ⟨s.vm, ⟨s.fiber.stack, frame :: rest⟩⟩
    ∧ (∀ s2, step s = .rtError "does not understand" s2 →
        s2.vm.globals = s.vm.globals
        ∧ s2.vm.methods = s.vm.methods
        ∧ s2.vm.globalSymbols = s.vm.globalSymbols
        ∧ s2.fiber.frames = s.fiber.frames
        ∧ s2.fiber.stack = s.fiber.stack) := by
  have hstep : step s
      = .rtError "does not understand" ⟨s.vm, ⟨s.fiber.stack, frame :: rest⟩⟩ := by
    simp only [step, hframes, hcode, stepInstr]
    rw [if_pos hlen]
    simp only [hrecv, htbl, hnf]
  refine ⟨hstep, ?_⟩
  intro s2 h2
  rw [hstep] at h2
  injection h2 with _ h3
  subst h3
  exact ⟨rfl, rfl, rfl, hframes.symm, rfl⟩

/-- Witness for C5: calling an unbound symbol on a number yields the runtime
error and preserves the state. -/
theorem call_method_not_found_spec_witness :
    step ⟨sampleNumVM, ⟨[.num 3], [⟨0, .mk [.call 0 99] [], 0⟩]⟩⟩
      = .rtError "does not understand"
          ⟨sampleNumVM, ⟨[.num 3], [⟨0, .mk [.call 0 99] [], 0⟩]⟩⟩
    ∧ (∀ s2, step ⟨sampleNumVM, ⟨[.num 3], [⟨0, .mk [.call 0 99] [], 0⟩]⟩⟩
          = .rtError "does not understand" s2 →
        s2.vm.globals = sampleNumVM.globals
        ∧ s2.vm.methods = sampleNumVM.methods
        ∧ s2.vm.globalSymbols = sampleNumVM.globalSymbols
        ∧ s2.fiber.frames = [⟨0, .mk [.call 0 99] [], 0⟩]
        ∧ s2.fiber.stack = [.num 3]) :=
  call_method_not_found_spec
    ⟨sampleNumVM, ⟨[.num 3], [⟨0, .mk [.call 0 99] [], 0⟩]⟩⟩
    ⟨0, .mk [.call 0 99] [], 0⟩ [] 0 99 (.num 3) [(0, .primM .addNum)]
    rfl rfl (by simp) rfl (by rfl) rfl

end Wren

namespace Wren

/-- The per-instruction executor never reports normal completion: `done` can
only arise from an empty frame stack. -/
theorem stepInstr_ne_done (vm : VMState) (frame : CallFrame)
    (rest : List CallFrame) (stack : List Value) (i : Instr)
    (s2 : InterpState) : stepInstr vm frame rest stack i ≠ .done s2 := by
  intro h
  cases i <;>
    simp only [stepInstr, pushAdvance, callFunction, bump] at h <;>
    (repeat' split at h) <;>
    simp at h

/-- One executed instruction preserves the `unsupported` singleton and, under
the fiber capacity invariant, keeps both stacks within their bounds. -/
theorem stepInstr_ok_props (vm : VMState) (frame : CallFrame)
    (rest : List CallFrame) (stack : List Value) (i : Instr)
    (s2 : InterpState) (h : stepInstr vm frame rest stack i = .ok s2) :
    s2.vm.unsupported = vm.unsupported
    ∧ (stack.length ≤ STACK_SIZE → rest.length + 1 ≤ MAX_CALL_FRAMES →
        s2.fiber.stack.length ≤ STACK_SIZE
          ∧ s2.fiber.frames.length ≤ MAX_CALL_FRAMES) := by
  cases i <;>
    simp only [stepInstr, pushAdvance, callFunction, bump] at h <;>
    (repeat' split at h) <;>
    first
      | exact StepResult.noConfusion h
      | (injection h with h2
         subst h2
         refine ⟨rfl, ?_⟩
         intro h3 h4
         refine ⟨?_, ?_⟩ <;>
           (try simp_all [STACK_SIZE, MAX_CALL_FRAMES, List.length_dropLast,
             List.length_take]) <;>
           (try omega))

end Wren

namespace Wren

/-- Normal completion only happens with an empty frame stack, and carries the
configuration through unchanged. -/
theorem step_done (s s2 : InterpState) (h : step s = .done s2) :
    s2 = s ∧ s.fiber.frames = [] := by
  cases hf : s.fiber.frames with
  | nil =>
    simp only [step, hf] at h
    injection h with h2
    exact ⟨h2.symm, rfl⟩
  | cons frame rest =>
    simp only [step, hf] at h
    cases hc : frame.fn.code.get? frame.ip with
    | some i =>
      rw [hc] at h
      exact absurd h (stepInstr_ne_done _ _ _ _ _ _)
    | none =>
      rw [hc] at h
      exact StepResult.noConfusion h

/-- A successful step preserves the `unsupported` singleton and the fiber
capacity invariant. -/
theorem step_ok_props (s s2 : InterpState) (h : step s = .ok s2) :
    s2.vm.unsupported = s.vm.unsupported
    ∧ (FiberInv s.fiber → FiberInv s2.fiber) := by
  cases hf : s.fiber.frames with
  | nil =>
    simp only [step, hf] at h
    exact StepResult.noConfusion h
  | cons frame rest =>
    simp only [step, hf] at h
    cases hc : frame.fn.code.get? frame.ip with
    | none =>
      rw [hc] at h
      exact StepResult.noConfusion h
    | some i =>
      rw [hc] at h
      obtain ⟨h1, h2⟩ := stepInstr_ok_props s.vm frame rest s.fiber.stack i s2 h
      refine ⟨h1, fun hinv => ?_⟩
      obtain ⟨ha, hb⟩ := hinv
      have hres := h2 ha (by simpa [Fiber.numFrames, hf] using hb)
      exact ⟨hres.1, hres.2⟩

/-- Chains of successful steps preserve the `unsupported` singleton and the
fiber capacity invariant. -/
theorem stepsTo_props (a b : InterpState) (h : stepsTo a b) :
    b.vm.unsupported = a.vm.unsupported
    ∧ (FiberInv a.fiber → FiberInv b.fiber) := by
  induction h with
  | refl => exact ⟨rfl, id⟩
  | tail hab hbc ih =>
    obtain ⟨h1, h2⟩ := step_ok_props _ _ hbc
    exact ⟨h1.trans ih.1, fun hi => h2 (ih.2 hi)⟩

/-- When the interpreter loop reports a final value, some terminal
configuration with no remaining frames was reached by stepping, and the value
is the top of its value stack, or its VM's `unsupported` singleton when the
stack is empty. -/
theorem runLoop_value (fuel : Nat) (s : InterpState) (v : Value)
    (h : runLoop fuel s = .value v) :
    ∃ s2, stepsTo s s2 ∧ s2.fiber.frames = []
      ∧ v = (match s2.fiber.stack.getLast? with
             | some x => x
             | none => s2.vm.unsupported) := by
  induction fuel generalizing s with
  | zero => simp [runLoop] at h
  | succ n ih =>
    simp only [runLoop] at h
    cases hs : step s with
    | done s2 =>
      rw [hs] at h
      obtain ⟨heq, hnil⟩ := step_done s s2 hs
      subst heq
      have h2 : (match s2.fiber.stack.getLast? with
                 | some x => InterpResult.value x
                 | none => InterpResult.value s2.vm.unsupported) = .value v := h
      refine ⟨s2, Relation.ReflTransGen.refl, hnil, ?_⟩
      cases hl : s2.fiber.stack.getLast? with
      | some x =>
        rw [hl] at h2
        injection h2 with h3
        exact h3.symm
      | none =>
        rw [hl] at h2
        injection h2 with h3
        exact h3.symm
    | ok s2 =>
      rw [hs] at h
      obtain ⟨s3, hsteps, hnil, hv⟩ := ih s2 h
      exact ⟨s3, Relation.ReflTransGen.head hs hsteps, hnil, hv⟩
    | rtError msg s2 =>
      rw [hs] at h
      exact InterpResult.noConfusion h
    | fatal msg =>
      rw [hs] at h
      exact InterpResult.noConfusion h

end Wren

namespace Wren

/-- C4: when `interpret` returns a value, it pushed the initial frame with
`callFunction`, ran the interpreter loop until no frames remained on the
active fiber, and returned the top of the value stack, or the VM's
`unsupported` singleton if the value stack ended empty. -/
theorem interpret_spec (fuel : Nat) (vm : VMState) (fn : ObjFn) (v : Value)
    (h : interpret fuel vm fn = .value v) :
    ∃ s2, stepsTo ⟨vm, callFunction ⟨[], []⟩ fn 0⟩ s2
      ∧ s2.fiber.frames = []
      ∧ v = (match s2.fiber.stack.getLast? with
             | some x => x
             | none => vm.unsupported) := by
  obtain ⟨s2, hsteps, hnil, hv⟩ := runLoop_value fuel _ v h
  refine ⟨s2, hsteps, hnil, ?_⟩
  have hu := (stepsTo_props _ _ hsteps).1
  cases hl : s2.fiber.stack.getLast? with
  | some x =>
    rw [hl] at hv
    exact hv
  | none =>
    rw [hl] at hv
    exact hv.trans hu

/-- Witness for C4: a two-instruction function pushes `true` and returns it
through the loop. -/
theorem interpret_spec_witness :
    interpret 5 sampleVM (.mk [.trueI, .endI] []) = .value (.boolV true)
    ∧ ∃ s2, stepsTo ⟨sampleVM, callFunction ⟨[], []⟩ (.mk [.trueI, .endI] []) 0⟩ s2
        ∧ s2.fiber.frames = []
        ∧ Value.boolV true
            = (match s2.fiber.stack.getLast? with
               | some x => x
               | none => sampleVM.unsupported) :=
  ⟨rfl, interpret_spec 5 sampleVM (.mk [.trueI, .endI] []) (.boolV true) rfl⟩

/-- C10: every operation on the active fiber respects the fixed capacities:
`callFunction` (under its room-for-one-more-frame precondition), each
successful interpreter step, any chain of steps, and the initial
configuration built by `interpret` all keep 0 ≤ stackSize ≤ STACK_SIZE and
0 ≤ numFrames ≤ MAX_CALL_FRAMES. -/
theorem fiber_bounds_spec :
    (∀ fiber fn numArgs, FiberInv fiber →
        fiber.numFrames < MAX_CALL_FRAMES →
        FiberInv (callFunction fiber fn numArgs)
          ∧ 0 ≤ (callFunction fiber fn numArgs).stackSize
          ∧ 0 ≤ (callFunction fiber fn numArgs).numFrames)
    ∧ (∀ s s2, FiberInv s.fiber → step s = .ok s2 → FiberInv s2.fiber)
    ∧ (∀ a b, stepsTo a b → FiberInv a.fiber → FiberInv b.fiber)
    ∧ (∀ vm fn,
        FiberInv (⟨vm, callFunction ⟨[], []⟩ fn 0⟩ : InterpState).fiber) := by
  refine ⟨?_, ?_, ?_, ?_⟩
  · intro fiber fn numArgs hinv hcap
    refine ⟨⟨?_, ?_⟩, Nat.zero_le _, Nat.zero_le _⟩
    · simpa [callFunction, Fiber.stackSize] using hinv.1
    · simp only [Fiber.numFrames, MAX_CALL_FRAMES] at hcap ⊢
      simp only [callFunction, List.length_cons]
      omega
  · intro s s2 hinv h
    exact (step_ok_props s s2 h).2 hinv
  · intro a b h hinv
    exact (stepsTo_props a b h).2 hinv
  · intro vm fn
    constructor <;>
      simp [callFunction, Fiber.stackSize, Fiber.numFrames, STACK_SIZE,
        MAX_CALL_FRAMES]

/-- Witness for C10 at concrete fibers and a concrete step. -/
theorem fiber_bounds_spec_witness :
    (FiberInv (callFunction ⟨[.num 1], []⟩ (.mk [] []) 1)
      ∧ 0 ≤ (callFunction ⟨[.num 1], []⟩ (.mk [] []) 1).stackSize
      ∧ 0 ≤ (callFunction ⟨[.num 1], []⟩ (.mk [] []) 1).numFrames)
    ∧ FiberInv (⟨sampleVM, ⟨[.boolV false],
        [⟨4, .mk [.andI 3] [], 0⟩]⟩⟩ : InterpState).fiber
    ∧ FiberInv (⟨sampleVM,
        callFunction ⟨[], []⟩ (.mk [] []) 0⟩ : InterpState).fiber :=
  ⟨fiber_bounds_spec.1 ⟨[.num 1], []⟩ (.mk [] []) 1
      ⟨by simp [Fiber.stackSize, STACK_SIZE],
       by simp [Fiber.numFrames, MAX_CALL_FRAMES]⟩
      (by simp [Fiber.numFrames, MAX_CALL_FRAMES]),
   fiber_bounds_spec.2.1
      ⟨sampleVM, ⟨[.boolV false], [⟨0, .mk [.andI 3] [], 0⟩]⟩⟩
      ⟨sampleVM, ⟨[.boolV false], [⟨4, .mk [.andI 3] [], 0⟩]⟩⟩
      ⟨by simp [Fiber.stackSize, STACK_SIZE],
       by simp [Fiber.numFrames, MAX_CALL_FRAMES]⟩ rfl,
   fiber_bounds_spec.2.2.2 sampleVM (.mk [] [])⟩

end Wren

namespace Wren.GC

/-- Marking never unmarks. -/
theorem subset_expand (objects : List GObj) (s : Finset Nat) :
    s ⊆ expand objects s :=
  Finset.subset_union_left

/-- The start set stays inside every marking iterate. -/
theorem subset_iterate (objects : List GObj) (s : Finset Nat) (n : Nat) :
    s ⊆ (expand objects)^[n] s := by
  induction n with
  | zero => simp
  | succ m ih =>
    rw [Function.iterate_succ_apply']
    exact ih.trans (subset_expand objects _)

/-- Everything the mark rounds reach is genuinely reachable from the
roots. -/
theorem iterate_sound (objects : List GObj) (rs : List Nat) (n : Nat) :
    ∀ j ∈ (expand objects)^[n] rs.toFinset, Reachable objects rs j := by
  induction n with
  | zero =>
    intro j hj
    simp only [Function.iterate_zero, id] at hj
    exact ⟨j, List.mem_toFinset.mp hj, Relation.ReflTransGen.refl⟩
  | succ m ih =>
    intro j hj
    rw [Function.iterate_succ_apply'] at hj
    rcases Finset.mem_union.mp hj with hj | hj
    · exact ih j hj
    · simp only [succsOf, List.mem_toFinset, List.mem_flatMap] at hj
      obtain ⟨o, ho, hjref⟩ := hj
      rw [List.mem_filter] at ho
      obtain ⟨homem, hoid⟩ := ho
      have hid : o.id ∈ (expand objects)^[m] rs.toFinset :=
        of_decide_eq_true hoid
      obtain ⟨r, hr, hpath⟩ := ih o.id hid
      exact ⟨r, hr, hpath.tail ⟨o, homem, rfl, hjref⟩⟩

/-- A fixpoint of one mark round is closed under reference edges. -/
theorem fix_closed (objects : List GObj) (s : Finset Nat)
    (hfix : expand objects s = s) (i j : Nat) (hi : i ∈ s)
    (hij : edge objects i j) : j ∈ s := by
  obtain ⟨o, ho, hoid, hj⟩ := hij
  have hjs : j ∈ succsOf objects s := by
    simp only [succsOf, List.mem_toFinset, List.mem_flatMap]
    exact ⟨o, List.mem_filter.mpr ⟨ho, decide_eq_true (hoid ▸ hi)⟩, hj⟩
  have : j ∈ expand objects s := Finset.mem_union_right _ hjs
  rwa [hfix] at this

/-- Every mark iterate stays inside the mark universe. -/
theorem iterate_subset_universe (objects : List GObj) (rs : List Nat)
    (n : Nat) :
    (expand objects)^[n] rs.toFinset ⊆ markUniverse objects rs := by
  induction n with
  | zero =>
    simp only [Function.iterate_zero, id]
    exact Finset.subset_union_left
  | succ m ih =>
    rw [Function.iterate_succ_apply']
    intro j hj
    rcases Finset.mem_union.mp hj with hj | hj
    · exact ih hj
    · simp only [succsOf, List.mem_toFinset, List.mem_flatMap] at hj
      obtain ⟨o, ho, hjref⟩ := hj
      refine Finset.mem_union_right _ ?_
      rw [List.mem_toFinset, List.mem_flatMap]
      exact ⟨o, (List.mem_filter.mp ho).1, hjref⟩

/-- A mark round that changes nothing keeps changing nothing. -/
theorem fix_stable (objects : List GObj) (s : Finset Nat)
    (hfix : expand objects s = s) (d : Nat) :
    (expand objects)^[d] s = s := by
  induction d with
  | zero => rfl
  | succ m ih => rw [Function.iterate_succ_apply', ih, hfix]

/-- Some mark round within the universe bound is already a fixpoint. -/
theorem exists_fix (objects : List GObj) (rs : List Nat) :
    ∃ k ≤ (markUniverse objects rs).card,
      expand objects ((expand objects)^[k] rs.toFinset)
        = (expand objects)^[k] rs.toFinset := by
  by_contra hno
  push_neg at hno
  have hgrow : ∀ n, n ≤ (markUniverse objects rs).card + 1 →
      n ≤ ((expand objects)^[n] rs.toFinset).card := by
    intro n
    induction n with
    | zero => intro _; exact Nat.zero_le _
    | succ m ih =>
      intro hm
      have hmlt : m ≤ (markUniverse objects rs).card := by omega
      have hne := hno m hmlt
      have hss : (expand objects)^[m] rs.toFinset
          ⊂ expand objects ((expand objects)^[m] rs.toFinset) :=
        ssubset_iff_subset_ne.mpr
          ⟨subset_expand objects _, fun he => hne he.symm⟩
      have hcard := Finset.card_lt_card hss
      rw [Function.iterate_succ_apply']
      have := ih (by omega)
      omega
  have hbig := hgrow ((markUniverse objects rs).card + 1) (le_refl _)
  have hsub := iterate_subset_universe objects rs ((markUniverse objects rs).card + 1)
  have := Finset.card_le_card hsub
  omega

/-- The mark set is a fixpoint of the mark round. -/
theorem markSet_fix (objects : List GObj) (rs : List Nat) :
    expand objects (markSet objects rs) = markSet objects rs := by
  obtain ⟨k, hk, hfix⟩ := exists_fix objects rs
  have hsplit : (markUniverse objects rs).card + 1
      = ((markUniverse objects rs).card + 1 - k) + k := by omega
  have hms : markSet objects rs = (expand objects)^[k] rs.toFinset := by
    unfold markSet
    rw [hsplit, Function.iterate_add_apply]
    exact fix_stable objects _ hfix _
  rw [hms]
  exact hfix

/-- Marking is complete: every reachable identity is marked. -/
theorem reachable_mem_markSet (objects : List GObj) (rs : List Nat) (j : Nat)
    (h : Reachable objects rs j) : j ∈ markSet objects rs := by
  obtain ⟨r, hr, hpath⟩ := h
  have hr2 : r ∈ markSet objects rs :=
    subset_iterate objects rs.toFinset _ (List.mem_toFinset.mpr hr)
  clear hr
  induction hpath with
  | refl => exact hr2
  | tail hab hbc ih =>
    exact fix_closed objects _ (markSet_fix objects rs) _ _ ih hbc

/-- Marking computes exactly the reachable identities. -/
theorem markSet_iff (objects : List GObj) (rs : List Nat) (j : Nat) :
    j ∈ markSet objects rs ↔ Reachable objects rs j :=
  ⟨fun h => iterate_sound objects rs _ j h,
   fun h => reachable_mem_markSet objects rs j h⟩

/-- Splitting a size sum by a predicate. -/
theorem sum_size_split (l : List GObj) (p : GObj → Bool) :
    ((l.filter p).map (fun o => o.size)).sum
      + ((l.filter (fun o => ! p o)).map (fun o => o.size)).sum
      = (l.map (fun o => o.size)).sum := by
  induction l with
  | nil => rfl
  | cons o rest ih =>
    cases hp : p o <;>
      simp [List.filter_cons, hp] <;>
      omega

end Wren.GC

namespace Wren.GC

/-- C1: in every collection, the mark set is exactly the set of identities
reachable from the roots (pinned stack, globals, singleton classes, fiber
stack, frame function references); every object of the all-objects list
whose identity is reachable survives unchanged (the swept list is a sublist
of the original), every object whose identity is unreachable is unlinked,
and `totalAllocated` is decremented by exactly the sizes of the freed
objects, leaving the sum of the survivors' sizes. -/
theorem collectGarbage_correct (vm : WrenVM)
    (hacc : vm.totalAllocated = (vm.first.map (fun o => o.size)).sum) :
    (∀ j, j ∈ markSet vm.first (roots vm) ↔ Reachable vm.first (roots vm) j)
    ∧ (∀ o ∈ vm.first, Reachable vm.first (roots vm) o.id →
        o ∈ (collectGarbage vm).first)
    ∧ (∀ o ∈ vm.first, ¬ Reachable vm.first (roots vm) o.id →
        o ∉ (collectGarbage vm).first)
    ∧ List.Sublist (collectGarbage vm).first vm.first
    ∧ vm.totalAllocated
        = (collectGarbage vm).totalAllocated
          + ((vm.first.filter
                (fun o => decide (o.id ∉ markSet vm.first (roots vm)))).map
              (fun o => o.size)).sum
    ∧ (collectGarbage vm).totalAllocated
        = ((collectGarbage vm).first.map (fun o => o.size)).sum := by
  have hiff := markSet_iff vm.first (roots vm)
  have hfirst : (collectGarbage vm).first
      = vm.first.filter (fun o => decide (o.id ∈ markSet vm.first (roots vm))) := rfl
  have htot : (collectGarbage vm).totalAllocated
      = vm.totalAllocated
        - ((vm.first.filter
              (fun o => decide (o.id ∉ markSet vm.first (roots vm)))).map
            (fun o => o.size)).sum := rfl
  have hsplit := sum_size_split vm.first
    (fun o => decide (o.id ∈ markSet vm.first (roots vm)))
  have hnotnot : (vm.first.filter
        (fun o => ! decide (o.id ∈ markSet vm.first (roots vm))))
      = vm.first.filter (fun o => decide (o.id ∉ markSet vm.first (roots vm))) := by
    apply List.filter_congr
    intro o _
    by_cases h : o.id ∈ markSet vm.first (roots vm) <;> simp [h]
  rw [hnotnot] at hsplit
  refine ⟨hiff, ?_, ?_, ?_, ?_, ?_⟩
  · intro o ho hr
    rw [hfirst, List.mem_filter]
    exact ⟨ho, decide_eq_true ((hiff o.id).mpr hr)⟩
  · intro o ho hr hmem
    rw [hfirst, List.mem_filter] at hmem
    exact hr ((hiff o.id).mp (of_decide_eq_true hmem.2))
  · rw [hfirst]
    exact List.filter_sublist vm.first
  · rw [htot, hacc]
    omega
  · rw [htot, hfirst, hacc]
    omega

/-- Witness for C1: collecting `sampleGCVM` keeps objects 0 and 1, frees
object 2, and drops `totalAllocated` from 22 to 15. -/
theorem collectGarbage_correct_witness :
    sampleGCVM.totalAllocated = (sampleGCVM.first.map (fun o => o.size)).sum
    ∧ ((∀ j, j ∈ markSet sampleGCVM.first (roots sampleGCVM)
          ↔ Reachable sampleGCVM.first (roots sampleGCVM) j)
      ∧ (∀ o ∈ sampleGCVM.first,
          Reachable sampleGCVM.first (roots sampleGCVM) o.id →
          o ∈ (collectGarbage sampleGCVM).first)
      ∧ (∀ o ∈ sampleGCVM.first,
          ¬ Reachable sampleGCVM.first (roots sampleGCVM) o.id →
          o ∉ (collectGarbage sampleGCVM).first)
      ∧ List.Sublist (collectGarbage sampleGCVM).first sampleGCVM.first
      ∧ sampleGCVM.totalAllocated
          = (collectGarbage sampleGCVM).totalAllocated
            + ((sampleGCVM.first.filter
                  (fun o => decide (o.id ∉ markSet sampleGCVM.first (roots sampleGCVM)))).map
                (fun o => o.size)).sum
      ∧ (collectGarbage sampleGCVM).totalAllocated
          = ((collectGarbage sampleGCVM).first.map (fun o => o.size)).sum) :=
  ⟨rfl, collectGarbage_correct sampleGCVM rfl⟩

end Wren.GC
